import Mathlib

/-!
Shallow embedding of `pyprob/distributions.py` (classes `Empirical`, `Normal`,
`TruncatedNormal`, `Uniform`) and verification of the specification claims
about it.

Modelling conventions:
* tensors holding one number are modelled as real numbers; the element-wise
  torch arithmetic becomes real arithmetic;
* `torch.log` is modelled on its nonnegative arguments as a map into `EReal`
  with `log 0 = ⊥` (floating-point `-inf`); the only logarithm arguments that
  occur in the embedded code are `0`, `1` and positive reals;
* the external differentiable-tensor runtime (torch) supplies `erf`, `erfinv`
  and the standard-normal log-density; they are black boxes for this module,
  so `erf`/`erfinv` are abstracted as a runtime contract (`ErfRuntime`)
  carrying the documented properties of the error function, and a concrete
  instance (`erfModel`) shows the contract is satisfiable;
* lazily memoized statistics are modelled as pure definitions (the cache can
  only ever hold the value of the defining expression).
-/

/-- Contract of the external runtime functions `torch.erf` and `torch.erfinv`:
an odd-at-zero monotone error function with range inside `(-1, 1)` and its
(partial) inverse on `(-1, 1)`. These are documented mathematical properties
of the error function; the runtime is a black box for the embedded module. -/
structure ErfRuntime where
  erf : ℝ → ℝ
  erfinv : ℝ → ℝ
  erf_zero : erf 0 = 0
  erf_mono : Monotone erf
  erf_lt_one : ∀ x : ℝ, erf x < 1
  neg_one_lt_erf : ∀ x : ℝ, -1 < erf x
  erfinv_erf : ∀ x : ℝ, erfinv (erf x) = x
  erf_erfinv : ∀ y : ℝ, -1 < y → y < 1 → erf (erfinv y) = y
  erfinv_mono : ∀ a b : ℝ, -1 < a → a ≤ b → b < 1 → erfinv a ≤ erfinv b

/-- Embeds `Normal.cdf`: `0.5 * (1 + torch.erf((value - mean) * stddev.reciprocal() / math.sqrt(2)))`. -/
noncomputable def normalCdf (E : ErfRuntime) (mean stddev x : ℝ) : ℝ :=
  0.5 * (1 + E.erf ((x - mean) * stddev⁻¹ / Real.sqrt 2))

/-- Embeds `Normal.icdf`: `mean + stddev * torch.erfinv(2 * value - 1) * math.sqrt(2)`. -/
noncomputable def normalIcdf (E : ErfRuntime) (mean stddev p : ℝ) : ℝ :=
  mean + stddev * E.erfinv (2 * p - 1) * Real.sqrt 2

/-- Model of `torch.log` into `EReal` for nonnegative arguments: the float
`log` of `0` is `-inf`, modelled as `⊥`; on positive reals it is `Real.log`.
Negative arguments (float NaN) never occur in the embedded code. -/
noncomputable def tlog (x : ℝ) : EReal :=
  if x = 0 then ⊥ else ((Real.log x : ℝ) : EReal)

/-- Log-density of the standard normal distribution, the formula implemented
by the external runtime primitive `torch.distributions.Normal(0, 1).log_prob`
to which `TruncatedNormal.log_prob` delegates. -/
noncomputable def stdNormalLogProb (x : ℝ) : ℝ :=
  -(x ^ 2) / 2 - Real.log (Real.sqrt (2 * Real.pi))

/-- Embeds `TruncatedNormal._alpha = (low - mean) / stddev`. -/
noncomputable def truncAlpha (mean stddev low : ℝ) : ℝ := (low - mean) / stddev

/-- Embeds `TruncatedNormal._beta = (high - mean) / stddev`. -/
noncomputable def truncBeta (mean stddev high : ℝ) : ℝ := (high - mean) / stddev

/-- Embeds `TruncatedNormal._standard_normal_cdf_alpha`, the CDF of the
standard normal (the `Normal(0, 1)` delegate) at `alpha`. -/
noncomputable def truncCdfAlpha (E : ErfRuntime) (mean stddev low : ℝ) : ℝ :=
  normalCdf E 0 1 (truncAlpha mean stddev low)

/-- Embeds `TruncatedNormal._standard_normal_cdf_beta`. -/
noncomputable def truncCdfBeta (E : ErfRuntime) (mean stddev high : ℝ) : ℝ :=
  normalCdf E 0 1 (truncBeta mean stddev high)

/-- Embeds `TruncatedNormal._Z = cdf(beta) - cdf(alpha)`. -/
noncomputable def truncZ (E : ErfRuntime) (mean stddev low high : ℝ) : ℝ :=
  truncCdfBeta E mean stddev high - truncCdfAlpha E mean stddev low

/-- Embeds `TruncatedNormal._log_stddev_Z = torch.log(stddev * Z)`. -/
noncomputable def truncLogStddevZ (E : ErfRuntime) (mean stddev low high : ℝ) : ℝ :=
  Real.log (stddev * truncZ E mean stddev low high)

/-- Embeds `TruncatedNormal.log_prob`:
`torch.log(lb.mul(ub)) + standard_normal.log_prob((value - mean) / stddev) - log_stddev_Z`
where `lb = value.ge(low)` and `ub = value.le(high)` are 0/1 indicators. -/
noncomputable def truncLogProb (E : ErfRuntime) (mean stddev low high x : ℝ) : EReal :=
  tlog ((if low ≤ x then (1 : ℝ) else 0) * (if x ≤ high then (1 : ℝ) else 0))
    + ((stdNormalLogProb ((x - mean) / stddev) : ℝ) : EReal)
    - ((truncLogStddevZ E mean stddev low high : ℝ) : EReal)

/-- Embeds the value computed inside the loop of `TruncatedNormal.sample` for
one uniform draw `r`:
`standard_normal.icdf(cdf_alpha + rand * (cdf_beta - cdf_alpha)) * stddev + mean`. -/
noncomputable def truncSampleValue (E : ErfRuntime) (mean stddev low high r : ℝ) : ℝ :=
  normalIcdf E 0 1
      (truncCdfAlpha E mean stddev low
        + r * (truncCdfBeta E mean stddev high - truncCdfAlpha E mean stddev low))
    * stddev + mean

/-- Embeds `Uniform._mean = (high + low) / 2`. -/
noncomputable def uniformMean (low high : ℝ) : ℝ := (high + low) / 2

/-- Embeds `Uniform._variance = (high - low).pow(2) / 12`. -/
noncomputable def uniformVariance (low high : ℝ) : ℝ := (high - low) ^ 2 / 12

/-- Embeds `Uniform.log_prob`:
`torch.log(lb.mul(ub)) - torch.log(high - low)` where `lb = value.ge(low)` and
`ub = value.lt(high)` are 0/1 indicators (note the strict upper bound). -/
noncomputable def uniformLogProb (low high x : ℝ) : EReal :=
  tlog ((if low ≤ x then (1 : ℝ) else 0) * (if x < high then (1 : ℝ) else 0))
    - tlog (high - low)

/-- Modelled from the spec: `util.logsumexp` (module `pyprob/util.py` is not
under `src/`); the spec normalization formula
`weights = exp(log_weights - logsumexp(log_weights))` pins it as the
logarithm of the sum of exponentials. -/
noncomputable def logsumexp (lw : List ℝ) : ℝ :=
  Real.log ((lw.map Real.exp).sum)

/-- Embeds `Empirical.__init__` line
`weights = torch.exp(log_weights - util.logsumexp(log_weights))`. -/
noncomputable def normalizedWeights (lw : List ℝ) : List ℝ :=
  lw.map (fun w => Real.exp (w - logsumexp lw))

/-- Embeds one iteration of the `combine_duplicates` loop of
`Empirical.__init__`: linear-scan the distinct keys for a value equal to `v`;
on a hit add `w` to that key (keeping the key, discarding `v`), otherwise
insert `(v, w)` as a new key at the end (dict insertion order). -/
def combineStep {V W : Type} [DecidableEq V] [Add W]
    (dist : List (V × W)) (v : V) (w : W) : List (V × W) :=
  if ∃ q ∈ dist, q.1 = v then
    dist.map (fun p => if p.1 = v then (p.1, p.2 + w) else p)
  else
    dist ++ [(v, w)]

/-- Embeds the `combine_duplicates=True` aggregation loop of
`Empirical.__init__` over all `(value, weight)` pairs in order. -/
def combineDuplicates {V W : Type} [DecidableEq V] [Add W]
    (pairs : List (V × W)) : List (V × W) :=
  pairs.foldl (fun dist p => combineStep dist p.1 p.2) []

/-- Embeds `torch.sort(weights, descending=True)` together with the
reindexing `values = [values[i] for i in indices]` of `Empirical.__init__`:
the `(value, weight)` pairs are sorted by descending weight (tie order is
implementation-defined in the source; a stable sort is used here). -/
def sortPairsDesc {V W : Type} [LinearOrder W] (pairs : List (V × W)) :
    List (V × W) :=
  pairs.insertionSort (fun p q => q.2 ≤ p.2)

/-- Embeds `Empirical.expectation`: `ret = 0.`, then
`ret += func(values[i]) * weights[i]` over all stored entries. -/
def expectationList (pairs : List (ℝ × ℝ)) (f : ℝ → ℝ) : ℝ :=
  pairs.foldl (fun ret p => ret + f p.1 * p.2) 0

/-- Embeds `Empirical.mean = expectation(lambda x: x)` (the memo cache
`_mean` always holds this value). -/
def empMean (pairs : List (ℝ × ℝ)) : ℝ :=
  expectationList pairs (fun x => x)

/-- Embeds `Empirical.variance = expectation(lambda x: (x - mean)**2)`,
where `mean` is the (possibly just computed) `Empirical.mean`. -/
def empVariance (pairs : List (ℝ × ℝ)) : ℝ :=
  expectationList pairs (fun x => (x - empMean pairs) ^ 2)

/-- Embeds `Empirical.mean_unweighted`: `total = 0`, `total += values[i]`
over stored entries, divided by `self.length` (the post-aggregation number
of distinct entries). -/
def empMeanUnweighted {K : Type} [DivisionRing K]
    (pairs : List (K × K)) : K :=
  (pairs.foldl (fun total p => total + p.1) 0) / (pairs.length : K)

/-- Embeds `Empirical.variance_unweighted`: sum of squared deviations of the
stored values from `mean_unweighted`, divided by `self.length`. -/
def empVarianceUnweighted {K : Type} [DivisionRing K]
    (pairs : List (K × K)) : K :=
  (pairs.foldl (fun total p => total + (p.1 - empMeanUnweighted pairs) ^ 2) 0)
    / (pairs.length : K)

/-- Embeds the `while util.has_nan_or_inf(ret)` retry loop of
`TruncatedNormal.sample` generically: `attempt i` is the (finite `some` or
non-finite `none`) result the inverse-CDF evaluation would produce at loop
iteration `i`, and `fuel` bounds how many iterations are observed; `none`
means the loop is still running when the fuel runs out. -/
def retryLoop {α : Type} (attempt : ℕ → Option α) : ℕ → ℕ → Option α
  | _, 0 => none
  | i, fuel + 1 =>
    match attempt i with
    | some v => some v
    | none => retryLoop attempt (i + 1) fuel

/-- Embeds `TruncatedNormal.sample` as written in the source: `rand` is drawn
once, before the loop (`rand = util.to_variable(torch.zeros(shape).uniform_())`),
so every iteration re-evaluates the inverse CDF at the same draw
`rands 0`. -/
def truncSampleCode {D α : Type} (evalIcdf : D → Option α) (rands : ℕ → D)
    (fuel : ℕ) : Option α :=
  retryLoop (fun _ => evalIcdf (rands 0)) 0 fuel

/-- Modelled from the spec: `TruncatedNormal.sample` is to detect a
non-finite result and retry with a fresh random draw, so iteration `i`
evaluates the inverse CDF at the fresh draw `rands i`. -/
def truncSampleFresh {D α : Type} (evalIcdf : D → Option α) (rands : ℕ → D)
    (fuel : ℕ) : Option α :=
  retryLoop (fun i => evalIcdf (rands i)) 0 fuel

/-- Embeds the diagnostic of `TruncatedNormal.sample`: after `n` loop
iterations (iteration number `i + 1` is the value of `attempt_count`), the
number of warnings printed by `if (attempt_count == 10000): print(...)`. -/
def warningsPrinted : ℕ → ℕ
  | 0 => 0
  | n + 1 => warningsPrinted n + if n + 1 = 10000 then 1 else 0

/-- Inverse-CDF evaluation outcome for which the first draw saturates to a
non-finite value (`none`) while every other draw evaluates finitely. -/
def stuckEval : ℚ → Option ℚ :=
  fun x => if x = 0 then none else some x

/-- Stream of distinct uniform draws used to exercise the sampling loop. -/
def drawStream : ℕ → ℚ := fun i => (i : ℚ)

/-- Concrete instance of the `ErfRuntime` contract, witnessing that its
assumptions are mutually satisfiable: `x / (1 + |x|)` is a monotone bijection
from the reals onto `(-1, 1)` with inverse `y / (1 - |y|)`. -/
noncomputable def erfModel : ErfRuntime where
  erf := fun x => x / (1 + |x|)
  erfinv := fun y => y / (1 - |y|)
  erf_zero := by simp
  erf_mono := by
    intro a b hab
    have ha : (0 : ℝ) < 1 + |a| := by positivity
    have hb : (0 : ℝ) < 1 + |b| := by positivity
    simp only
    rw [div_le_div_iff₀ ha hb]
    rcases le_or_lt 0 a with h0a | h0a
    · rw [abs_of_nonneg h0a, abs_of_nonneg (le_trans h0a hab)]
      nlinarith
    · rcases le_or_lt 0 b with h0b | h0b
      · rw [abs_of_neg h0a, abs_of_nonneg h0b]
        nlinarith
      · rw [abs_of_neg h0a, abs_of_neg h0b]
        nlinarith
  erf_lt_one := by
    intro x
    have hx : (0 : ℝ) < 1 + |x| := by positivity
    rw [div_lt_one hx]
    nlinarith [le_abs_self x]
  neg_one_lt_erf := by
    intro x
    have hx : (0 : ℝ) < 1 + |x| := by positivity
    rw [lt_div_iff₀ hx]
    nlinarith [neg_abs_le x]
  erfinv_erf := by
    intro x
    have hx : (0 : ℝ) < 1 + |x| := by positivity
    simp only
    rw [abs_div, abs_of_pos hx]
    have h1 : 1 - |x| / (1 + |x|) = 1 / (1 + |x|) := by
      field_simp
    rw [h1, one_div, div_inv_eq_mul, div_mul_cancel₀ _ (ne_of_gt hx)]
  erf_erfinv := by
    intro y hy1 hy2
    have hy : |y| < 1 := abs_lt.mpr ⟨hy1, hy2⟩
    have hd : (0 : ℝ) < 1 - |y| := by linarith
    simp only
    rw [abs_div, abs_of_pos hd]
    have h1 : 1 + |y| / (1 - |y|) = 1 / (1 - |y|) := by
      field_simp
    rw [h1, one_div, div_inv_eq_mul, div_mul_cancel₀ _ (ne_of_gt hd)]
  erfinv_mono := by
    intro a b ha hab hb
    have haa : |a| < 1 := abs_lt.mpr ⟨ha, lt_of_le_of_lt hab hb⟩
    have hbb : |b| < 1 := abs_lt.mpr ⟨lt_of_lt_of_le ha hab, hb⟩
    have hda : (0 : ℝ) < 1 - |a| := by linarith
    have hdb : (0 : ℝ) < 1 - |b| := by linarith
    simp only
    rw [div_le_div_iff₀ hda hdb]
    rcases le_or_lt 0 a with h0a | h0a
    · rw [abs_of_nonneg h0a, abs_of_nonneg (le_trans h0a hab)]
      nlinarith
    · rcases le_or_lt 0 b with h0b | h0b
      · rw [abs_of_neg h0a, abs_of_nonneg h0b]
        nlinarith
      · rw [abs_of_neg h0a, abs_of_neg h0b]
        nlinarith

lemma uniformLogProb_piecewise (low high x : ℝ) (h : low < high) :
    uniformLogProb low high x =
      if low ≤ x ∧ x < high then ((-Real.log (high - low) : ℝ) : EReal) else ⊥ := by
  have hpos : (0 : ℝ) < high - low := by linarith
  by_cases h1 : low ≤ x <;> by_cases h2 : x < high <;>
    simp [uniformLogProb, tlog, h1, h2, hpos.ne', EReal.bot_sub, Real.log_one]

/-- C7: for `Uniform(low, high)` with `low < high`, the mean is
`(low + high) / 2`, the variance is `(high - low) ^ 2 / 12`, and the
log-density is `-log (high - low)` on `low ≤ x < high` (upper bound
exclusive) and `-∞` otherwise; in particular `Uniform(0, 1)` has mean `1/2`,
variance `1/12`, `log_prob(0.5) = 0`, `log_prob(1) = -∞` and
`log_prob(-0.1) = -∞`. -/
theorem uniform_spec (low high x : ℝ) (h : low < high) :
    uniformMean low high = (low + high) / 2
    ∧ uniformVariance low high = (high - low) ^ 2 / 12
    ∧ uniformLogProb low high x =
        (if low ≤ x ∧ x < high then ((-Real.log (high - low) : ℝ) : EReal) else ⊥)
    ∧ uniformMean 0 1 = 1 / 2
    ∧ uniformVariance 0 1 = 1 / 12
    ∧ uniformLogProb 0 1 (1 / 2) = (0 : EReal)
    ∧ uniformLogProb 0 1 1 = ⊥
    ∧ uniformLogProb 0 1 (-(1 / 10)) = ⊥ := by
  refine ⟨by rw [uniformMean, add_comm], rfl, uniformLogProb_piecewise low high x h,
    by norm_num [uniformMean], by norm_num [uniformVariance], ?_, ?_, ?_⟩
  · rw [uniformLogProb_piecewise 0 1 (1 / 2) one_pos]
    norm_num [Real.log_one]
  · rw [uniformLogProb_piecewise 0 1 1 one_pos]
    norm_num
  · rw [uniformLogProb_piecewise 0 1 (-(1 / 10)) one_pos]
    norm_num

/-- Closed witness for `uniform_spec`, instantiated at `Uniform(0, 1)` and
`x = 1/2`. -/
theorem uniform_spec_witness :
    (0 : ℝ) < 1 ∧
    (uniformMean 0 1 = (0 + 1) / 2
    ∧ uniformVariance 0 1 = (1 - 0) ^ 2 / 12
    ∧ uniformLogProb 0 1 (1 / 2) =
        (if (0:ℝ) ≤ (1/2 : ℝ) ∧ (1/2 : ℝ) < 1 then ((-Real.log (1 - 0) : ℝ) : EReal) else ⊥)
    ∧ uniformMean 0 1 = 1 / 2
    ∧ uniformVariance 0 1 = 1 / 12
    ∧ uniformLogProb 0 1 (1 / 2) = (0 : EReal)
    ∧ uniformLogProb 0 1 1 = ⊥
    ∧ uniformLogProb 0 1 (-(1 / 10)) = ⊥) :=
  ⟨one_pos, uniform_spec 0 1 (1 / 2) one_pos⟩

/-- C6: `Normal.cdf` and `Normal.icdf` implement the closed forms
`cdf(x) = 0.5 * (1 + erf((x - mean) / (stddev * sqrt 2)))` and
`icdf(p) = mean + stddev * erfinv(2p - 1) * sqrt 2`; for `Normal(0, 1)`,
`cdf 0 = 0.5`, `icdf (1/2) = 0`, and `cdf (icdf p) = p` for `p ∈ (0, 1)`. -/
theorem normal_cdf_icdf_spec (E : ErfRuntime) (mean stddev x p : ℝ)
    (hp0 : 0 < p) (hp1 : p < 1) :
    normalCdf E mean stddev x = 0.5 * (1 + E.erf ((x - mean) / (stddev * Real.sqrt 2)))
    ∧ normalIcdf E mean stddev p = mean + stddev * E.erfinv (2 * p - 1) * Real.sqrt 2
    ∧ normalCdf E 0 1 0 = 0.5
    ∧ normalIcdf E 0 1 (1 / 2) = 0
    ∧ normalCdf E 0 1 (normalIcdf E 0 1 p) = p := by
  have h0 : E.erfinv 0 = 0 := by
    nth_rewrite 1 [← E.erf_zero]
    rw [E.erfinv_erf]
  have hs2 : Real.sqrt 2 ≠ 0 := by positivity
  refine ⟨?_, rfl, ?_, ?_, ?_⟩
  · unfold normalCdf
    have harg : (x - mean) * stddev⁻¹ / Real.sqrt 2 = (x - mean) / (stddev * Real.sqrt 2) := by
      field_simp
    rw [harg]
  · rw [normalCdf, show ((0 : ℝ) - 0) * (1 : ℝ)⁻¹ / Real.sqrt 2 = 0 by norm_num,
      E.erf_zero]
    norm_num
  · rw [normalIcdf, show (2 : ℝ) * (1 / 2) - 1 = 0 by norm_num, h0]
    simp
  · have hM : normalIcdf E 0 1 p = E.erfinv (2 * p - 1) * Real.sqrt 2 := by
      simp [normalIcdf]
    rw [normalCdf, hM]
    have harg : (E.erfinv (2 * p - 1) * Real.sqrt 2 - 0) * (1 : ℝ)⁻¹ / Real.sqrt 2
        = E.erfinv (2 * p - 1) := by
      field_simp
    rw [harg, E.erf_erfinv (2 * p - 1) (by linarith) (by linarith)]
    ring

/-- Closed witness for `normal_cdf_icdf_spec`, instantiated at the concrete
runtime model and `p = 1/2`. -/
theorem normal_cdf_icdf_witness :
    (0 : ℝ) < 1 / 2 ∧ (1 / 2 : ℝ) < 1 ∧
    normalCdf erfModel 0 1 (normalIcdf erfModel 0 1 (1 / 2)) = 1 / 2 :=
  ⟨by norm_num, by norm_num,
    (normal_cdf_icdf_spec erfModel 3 2 1 (1 / 2) (by norm_num) (by norm_num)).2.2.2.2⟩

/-- C3: the `Empirical` construction normalizes weights as
`exp(log_weights - logsumexp(log_weights))`, so for every nonempty
log-weight vector the stored weights sum to 1 (exact real arithmetic). -/
theorem empirical_weights_sum_one (lw : List ℝ) (h : lw ≠ []) :
    (normalizedWeights lw).sum = 1 := by
  have hpos : 0 < (lw.map Real.exp).sum := by
    cases lw with
    | nil => exact absurd rfl h
    | cons a t =>
      simp only [List.map_cons, List.sum_cons]
      have h1 : 0 < Real.exp a := Real.exp_pos a
      have h2 : 0 ≤ (t.map Real.exp).sum := by
        refine List.sum_nonneg ?_
        intro y hy
        obtain ⟨z, _, rfl⟩ := List.mem_map.mp hy
        exact le_of_lt (Real.exp_pos z)
      linarith
  have hS : Real.exp (logsumexp lw) = (lw.map Real.exp).sum := Real.exp_log hpos
  have hterm : ∀ w : ℝ,
      Real.exp (w - logsumexp lw) = Real.exp w * ((lw.map Real.exp).sum)⁻¹ := by
    intro w
    rw [Real.exp_sub, hS, div_eq_mul_inv]
  unfold normalizedWeights
  simp only [hterm]
  rw [List.sum_map_mul_right]
  exact mul_inv_cancel₀ (ne_of_gt hpos)

/-- Closed witness for `empirical_weights_sum_one` at the one-element
log-weight vector `[0]`. -/
theorem empirical_weights_sum_one_witness :
    ([(0 : ℝ)] ≠ []) ∧ (normalizedWeights [(0 : ℝ)]).sum = 1 :=
  ⟨by simp, empirical_weights_sum_one [(0 : ℝ)] (by simp)⟩

lemma foldl_add_eq {A M : Type} [AddCommMonoid M] (g : A → M) :
    ∀ (l : List A) (init : M),
      l.foldl (fun r p => r + g p) init = init + (l.map g).sum
  | [], init => by simp
  | a :: t, init => by
    simp only [List.foldl_cons, List.map_cons, List.sum_cons]
    rw [foldl_add_eq g t (init + g a), add_assoc]

lemma expectationList_eq_sum (pairs : List (ℝ × ℝ)) (f : ℝ → ℝ) :
    expectationList pairs f = (pairs.map (fun p => p.2 * f p.1)).sum := by
  unfold expectationList
  rw [foldl_add_eq (fun p : ℝ × ℝ => f p.1 * p.2) pairs 0, zero_add]
  refine congrArg List.sum (List.map_congr_left ?_)
  intro a _
  exact mul_comm (f a.1) a.2

/-- C8: `Empirical.expectation f` is the weighted sum of `f` over the stored
entries, `Empirical.mean` is the weighted expectation of the identity and
`Empirical.variance` the weighted expectation of the squared deviation from
that mean; memoization is modelled by pure definitions, so accessing the
variance before the mean is trivially fine. -/
theorem empirical_expectation_spec (pairs : List (ℝ × ℝ)) (f : ℝ → ℝ) :
    expectationList pairs f = (pairs.map (fun p => p.2 * f p.1)).sum
    ∧ empMean pairs = (pairs.map (fun p => p.2 * p.1)).sum
    ∧ empVariance pairs = (pairs.map (fun p => p.2 * (p.1 - empMean pairs) ^ 2)).sum :=
  ⟨expectationList_eq_sum pairs f,
    expectationList_eq_sum pairs (fun x => x),
    expectationList_eq_sum pairs (fun x => (x - empMean pairs) ^ 2)⟩

instance sortRelTotal {V W : Type} [LinearOrder W] :
    IsTotal (V × W) (fun p q => q.2 ≤ p.2) :=
  ⟨fun a b => le_total b.2 a.2⟩

instance sortRelTrans {V W : Type} [LinearOrder W] :
    IsTrans (V × W) (fun p q => q.2 ≤ p.2) :=
  ⟨fun _ _ _ h1 h2 => le_trans h2 h1⟩

/-- C9: after aggregation the `(value, weight)` pairs are stored sorted by
descending weight, and the stored pairs are a permutation of the
pre-sorting pairs (each value stays attached to its weight). -/
theorem empirical_sorted_desc {V W : Type} [LinearOrder W]
    (pairs : List (V × W)) (i j : ℕ) (hij : i < j)
    (hj : j < (sortPairsDesc pairs).length) :
    ((sortPairsDesc pairs).get ⟨j, hj⟩).2
      ≤ ((sortPairsDesc pairs).get ⟨i, Nat.lt_trans hij hj⟩).2
    ∧ List.Perm (sortPairsDesc pairs) pairs := by
  constructor
  · have hsorted : List.Sorted (fun p q : V × W => q.2 ≤ p.2) (sortPairsDesc pairs) :=
      List.sorted_insertionSort _ pairs
    exact hsorted.rel_get_of_lt hij
  · exact List.perm_insertionSort _ pairs

/-- Closed witness for `empirical_sorted_desc` on a concrete two-entry
distribution. -/
theorem empirical_sorted_desc_witness :
    ((sortPairsDesc [((1 : ℚ), (1 : ℚ)), (2, 3)]).get ⟨1, by decide⟩).2
      ≤ ((sortPairsDesc [((1 : ℚ), (1 : ℚ)), (2, 3)]).get ⟨0, by decide⟩).2
    ∧ List.Perm (sortPairsDesc [((1 : ℚ), (1 : ℚ)), (2, 3)])
        [((1 : ℚ), (1 : ℚ)), (2, 3)] :=
  empirical_sorted_desc [((1 : ℚ), (1 : ℚ)), (2, 3)] 0 1 (by decide) (by decide)

/-- C10: the unweighted mean and variance divide by the post-aggregation
number of stored distinct entries, not by the number of originally supplied
values; with `combine_duplicates=True` on values `[1, 1, 2]` (weights
`[1/4, 1/4, 1/2]`) the unweighted mean is `(1 + 2) / 2 = 3/2`, not `4/3`. -/
theorem empirical_unweighted_mean_spec :
    (∀ pairs : List (ℝ × ℝ),
      empMeanUnweighted pairs = (pairs.map Prod.fst).sum / pairs.length
      ∧ empVarianceUnweighted pairs
          = (pairs.map (fun p => (p.1 - empMeanUnweighted pairs) ^ 2)).sum / pairs.length)
    ∧ empMeanUnweighted
        (sortPairsDesc (combineDuplicates [((1 : ℚ), (1 : ℚ) / 4), (1, 1 / 4), (2, 1 / 2)]))
        = 3 / 2
    ∧ empMeanUnweighted
        (sortPairsDesc (combineDuplicates [((1 : ℚ), (1 : ℚ) / 4), (1, 1 / 4), (2, 1 / 2)]))
        ≠ 4 / 3 := by
  have hpipe : sortPairsDesc
      (combineDuplicates [((1 : ℚ), (1 : ℚ) / 4), (1, 1 / 4), (2, 1 / 2)])
      = [(1, 1 / 2), (2, 1 / 2)] := by
    norm_num [combineDuplicates, combineStep, sortPairsDesc, List.insertionSort,
      List.orderedInsert]
  refine ⟨fun pairs => ⟨?_, ?_⟩, ?_, ?_⟩
  · rw [empMeanUnweighted, foldl_add_eq Prod.fst pairs 0, zero_add]
  · rw [empVarianceUnweighted,
      foldl_add_eq (fun p : ℝ × ℝ => (p.1 - empMeanUnweighted pairs) ^ 2) pairs 0, zero_add]
  · rw [hpipe]
    norm_num [empMeanUnweighted]
  · rw [hpipe]
    norm_num [empMeanUnweighted]

lemma combineStep_keys_found {V W : Type} [DecidableEq V] [Add W]
    (dist : List (V × W)) (v : V) (w : W) :
    (dist.map (fun p => if p.1 = v then (p.1, p.2 + w) else p)).map Prod.fst
      = dist.map Prod.fst := by
  rw [List.map_map]
  refine List.map_congr_left ?_
  intro p _
  by_cases hp : p.1 = v <;> simp [hp]

lemma combineStep_spec {V W : Type} [DecidableEq V] [AddCommMonoid W]
    (processed dist : List (V × W)) (v : V) (w : W)
    (h1 : (dist.map Prod.fst).Nodup)
    (h2 : ∀ u : V, u ∈ dist.map Prod.fst ↔ u ∈ processed.map Prod.fst)
    (h3 : ∀ q ∈ dist, q.2 = ((processed.filter (fun p => p.1 = q.1)).map Prod.snd).sum) :
    ((combineStep dist v w).map Prod.fst).Nodup
    ∧ (∀ u : V, u ∈ (combineStep dist v w).map Prod.fst
        ↔ u ∈ (processed ++ [(v, w)]).map Prod.fst)
    ∧ ∀ q ∈ combineStep dist v w,
        q.2 = (((processed ++ [(v, w)]).filter (fun p => p.1 = q.1)).map Prod.snd).sum := by
  by_cases hf : ∃ q ∈ dist, q.1 = v
  · rw [combineStep, if_pos hf]
    have hv : v ∈ dist.map Prod.fst := by
      obtain ⟨q, hq, hqv⟩ := hf
      exact List.mem_map.mpr ⟨q, hq, hqv⟩
    refine ⟨?_, ?_, ?_⟩
    · rw [combineStep_keys_found]
      exact h1
    · intro u
      rw [combineStep_keys_found]
      simp only [List.map_append, List.mem_append, List.map_cons, List.map_nil,
        List.mem_singleton]
      constructor
      · intro hu
        exact Or.inl ((h2 u).mp hu)
      · rintro (hu | rfl)
        · exact (h2 u).mpr hu
        · exact hv
    · intro q' hq'
      obtain ⟨p, hp, rfl⟩ := List.mem_map.mp hq'
      rw [List.filter_append]
      by_cases hpv : p.1 = v
      · simp only [if_pos hpv]
        simp only [List.filter_cons, List.filter_nil]
        rw [h3 p hp]
        simp [hpv]
      · simp only [if_neg hpv]
        simp only [List.filter_cons, List.filter_nil]
        have : ¬ (v = p.1) := fun h => hpv h.symm
        rw [h3 p hp]
        simp [this]
  · rw [combineStep, if_neg hf]
    have hvnot : v ∉ dist.map Prod.fst := by
      intro hmem
      obtain ⟨q, hq, hqv⟩ := List.mem_map.mp hmem
      exact hf ⟨q, hq, hqv⟩
    refine ⟨?_, ?_, ?_⟩
    · rw [List.map_append]
      rw [List.nodup_append]
      refine ⟨h1, by simp, ?_⟩
      intro a ha hb
      simp only [List.map_cons, List.map_nil, List.mem_singleton] at hb
      exact hvnot (hb ▸ ha)
    · intro u
      simp only [List.map_append, List.mem_append]
      constructor
      · rintro (hu | hu)
        · exact Or.inl ((h2 u).mp hu)
        · exact Or.inr hu
      · rintro (hu | hu)
        · exact Or.inl ((h2 u).mpr hu)
        · exact Or.inr hu
    · intro q' hq'
      rcases List.mem_append.mp hq' with hq1 | hq1
      · have hq1v : q'.1 ≠ v := by
          intro h
          exact hf ⟨q', hq1, h⟩
        rw [List.filter_append]
        simp only [List.filter_cons, List.filter_nil]
        have : ¬ (v = q'.1) := fun h => hq1v h.symm
        rw [h3 q' hq1]
        simp [this]
      · simp only [List.mem_singleton] at hq1
        subst hq1
        rw [List.filter_append]
        have hfp : processed.filter (fun p => p.1 = (v, w).1) = [] := by
          rw [List.filter_eq_nil_iff]
          intro p hp
          simp only [decide_eq_true_eq]
          intro hcontra
          exact hvnot ((h2 v).mpr (List.mem_map.mpr ⟨p, hp, hcontra⟩))
        rw [hfp]
        simp

lemma combine_foldl_spec {V W : Type} [DecidableEq V] [AddCommMonoid W] :
    ∀ (rest processed dist : List (V × W)),
      ((dist.map Prod.fst).Nodup
        ∧ (∀ u : V, u ∈ dist.map Prod.fst ↔ u ∈ processed.map Prod.fst)
        ∧ ∀ q ∈ dist,
            q.2 = ((processed.filter (fun p => p.1 = q.1)).map Prod.snd).sum) →
      (((rest.foldl (fun d p => combineStep d p.1 p.2) dist).map Prod.fst).Nodup
        ∧ (∀ u : V, u ∈ (rest.foldl (fun d p => combineStep d p.1 p.2) dist).map Prod.fst
            ↔ u ∈ (processed ++ rest).map Prod.fst)
        ∧ ∀ q ∈ rest.foldl (fun d p => combineStep d p.1 p.2) dist,
            q.2 = (((processed ++ rest).filter (fun p => p.1 = q.1)).map Prod.snd).sum)
  | [], processed, dist, h => by simpa using h
  | (v, w) :: rest, processed, dist, h => by
    have hstep := combineStep_spec processed dist v w h.1 h.2.1 h.2.2
    have hrec :=
      combine_foldl_spec rest (processed ++ [(v, w)]) (combineStep dist v w) hstep
    simp only [List.foldl_cons]
    have hassoc : (processed ++ [(v, w)]) ++ rest = processed ++ (v, w) :: rest := by
      simp
    rw [hassoc] at hrec
    exact hrec

/-- C2: with `combine_duplicates=True` the aggregated entries have pairwise
distinct values, a value occurs among them exactly when it occurs among the
inputs, and the weight stored with each value is the sum of the weights of
all inputs carrying that exact value; in particular values `[1, 1, 2]` with
weights `[1/4, 1/4, 1/2]` aggregate to exactly the two entries
`(1, 1/2)` and `(2, 1/2)`. -/
theorem empirical_combine_duplicates_spec {V W : Type} [DecidableEq V]
    [AddCommMonoid W] (pairs : List (V × W)) :
    ((combineDuplicates pairs).map Prod.fst).Nodup
    ∧ (∀ u : V, u ∈ (combineDuplicates pairs).map Prod.fst ↔ u ∈ pairs.map Prod.fst)
    ∧ (∀ q ∈ combineDuplicates pairs,
        q.2 = ((pairs.filter (fun p => p.1 = q.1)).map Prod.snd).sum)
    ∧ combineDuplicates [((1 : ℚ), (1 : ℚ) / 4), (1, 1 / 4), (2, 1 / 2)]
        = [(1, 1 / 2), (2, 1 / 2)] := by
  have hinit : (((List.nil (α := V × W)).map Prod.fst).Nodup
      ∧ (∀ u : V, u ∈ (List.nil (α := V × W)).map Prod.fst
          ↔ u ∈ (List.nil (α := V × W)).map Prod.fst)
      ∧ ∀ q ∈ (List.nil (α := V × W)),
          q.2 = (((List.nil (α := V × W)).filter
            (fun p => p.1 = q.1)).map Prod.snd).sum) := by
    simp
  have h := combine_foldl_spec pairs [] [] hinit
  simp only [List.nil_append] at h
  refine ⟨h.1, h.2.1, h.2.2, ?_⟩
  norm_num [combineDuplicates, combineStep]

/-- Closed witness for `empirical_combine_duplicates_spec`: on the concrete
input, the aggregated weight of value `1` equals the filtered weight sum. -/
theorem empirical_combine_duplicates_witness :
    ((1 : ℚ), (1 : ℚ) / 2).2 =
      (([((1 : ℚ), (1 : ℚ) / 4), (1, 1 / 4), (2, 1 / 2)].filter
        (fun p => p.1 = ((1 : ℚ), (1 : ℚ) / 2).1)).map Prod.snd).sum :=
  (empirical_combine_duplicates_spec
      [((1 : ℚ), (1 : ℚ) / 4), (1, 1 / 4), (2, 1 / 2)]).2.2.1
    ((1 : ℚ), (1 : ℚ) / 2)
    (by norm_num [combineDuplicates, combineStep])

/-- C4: `TruncatedNormal.log_prob x` is `-∞` (log of a zero indicator)
outside `[low, high]`, and inside equals the standard-normal log-density of
the standardized value `(x - mean) / stddev` minus `log(stddev * Z)` with
`Z = cdf(beta) - cdf(alpha)`. -/
theorem truncatedNormal_logProb_spec (E : ErfRuntime) (mean stddev low high x : ℝ) :
    ((x < low ∨ high < x) → truncLogProb E mean stddev low high x = ⊥)
    ∧ (low ≤ x → x ≤ high →
        truncLogProb E mean stddev low high x =
          ((stdNormalLogProb ((x - mean) / stddev)
            - Real.log (stddev * truncZ E mean stddev low high) : ℝ) : EReal)) := by
  constructor
  · intro hout
    have hzero : (if low ≤ x then (1 : ℝ) else 0) * (if x ≤ high then (1 : ℝ) else 0)
        = 0 := by
      rcases hout with hcase | hcase
      · rw [if_neg (not_le.mpr hcase), zero_mul]
      · rw [if_neg (not_le.mpr hcase), mul_zero]
    rw [truncLogProb, hzero]
    simp [tlog, EReal.bot_add, EReal.bot_sub]
  · intro h1 h2
    rw [truncLogProb, if_pos h1, if_pos h2, one_mul, tlog, if_neg one_ne_zero,
      Real.log_one, truncLogStddevZ]
    norm_cast
    rw [zero_add]

/-- Closed witness for `truncatedNormal_logProb_spec`, at
`TruncatedNormal(0, 1, -1, 1)` with `x = 2` (outside) and `x = 0` (inside). -/
theorem truncatedNormal_logProb_witness :
    truncLogProb erfModel 0 1 (-1) 1 2 = ⊥
    ∧ truncLogProb erfModel 0 1 (-1) 1 0 =
        ((stdNormalLogProb ((0 - 0) / 1)
          - Real.log (1 * truncZ erfModel 0 1 (-1) 1) : ℝ) : EReal) :=
  ⟨(truncatedNormal_logProb_spec erfModel 0 1 (-1) 1 2).1 (Or.inr (by norm_num)),
    (truncatedNormal_logProb_spec erfModel 0 1 (-1) 1 0).2 (by norm_num) (by norm_num)⟩

/-- C5: for `0 < stddev`, `low < high` and a uniform draw `r ∈ [0, 1]`, the
inverse-CDF sampling value of `TruncatedNormal.sample` lies in
`[low, high]`. -/
theorem truncatedNormal_sample_in_range (E : ErfRuntime)
    (mean stddev low high r : ℝ) (hs : 0 < stddev) (hlh : low < high)
    (hr0 : 0 ≤ r) (hr1 : r ≤ 1) :
    low ≤ truncSampleValue E mean stddev low high r
    ∧ truncSampleValue E mean stddev low high r ≤ high := by
  have hs2 : (0 : ℝ) < Real.sqrt 2 := by positivity
  set a := truncAlpha mean stddev low with ha
  set b := truncBeta mean stddev high with hb
  have hab : a ≤ b := by
    rw [ha, hb, truncAlpha, truncBeta]
    gcongr
  have hu : a / Real.sqrt 2 ≤ b / Real.sqrt 2 := by gcongr
  set eA := E.erf (a / Real.sqrt 2) with heA
  set eB := E.erf (b / Real.sqrt 2) with heB
  have heAB : eA ≤ eB := E.erf_mono hu
  have heA1 : eA < 1 := E.erf_lt_one _
  have heB1 : eB < 1 := E.erf_lt_one _
  have heAm : -1 < eA := E.neg_one_lt_erf _
  have hcdfA : truncCdfAlpha E mean stddev low = 0.5 * (1 + eA) := by
    rw [truncCdfAlpha, normalCdf, heA, ← ha,
      show (a - 0) * (1 : ℝ)⁻¹ / Real.sqrt 2 = a / Real.sqrt 2 by norm_num]
  have hcdfB : truncCdfBeta E mean stddev high = 0.5 * (1 + eB) := by
    rw [truncCdfBeta, normalCdf, heB, ← hb,
      show (b - 0) * (1 : ℝ)⁻¹ / Real.sqrt 2 = b / Real.sqrt 2 by norm_num]
  set t := 2 * (truncCdfAlpha E mean stddev low
    + r * (truncCdfBeta E mean stddev high - truncCdfAlpha E mean stddev low)) - 1
    with hdeft
  have ht_eq : t = eA + r * (eB - eA) := by
    rw [hdeft, hcdfA, hcdfB]
    ring
  have htA : eA ≤ t := by
    rw [ht_eq]
    nlinarith [mul_nonneg hr0 (sub_nonneg.mpr heAB)]
  have htB : t ≤ eB := by
    rw [ht_eq]
    nlinarith [mul_nonneg (sub_nonneg.mpr hr1) (sub_nonneg.mpr heAB)]
  have hlow2 : a / Real.sqrt 2 ≤ E.erfinv t := by
    have hmono := E.erfinv_mono eA t heAm htA (lt_of_le_of_lt htB heB1)
    rw [heA, E.erfinv_erf] at hmono
    exact hmono
  have hhigh2 : E.erfinv t ≤ b / Real.sqrt 2 := by
    have hmono := E.erfinv_mono t eB (lt_of_lt_of_le heAm htA) htB heB1
    rw [heB, E.erfinv_erf] at hmono
    exact hmono
  have hicdf : truncSampleValue E mean stddev low high r
      = E.erfinv t * Real.sqrt 2 * stddev + mean := by
    rw [truncSampleValue, normalIcdf, hdeft]
    ring
  have hmul_low : a * stddev ≤ E.erfinv t * Real.sqrt 2 * stddev := by
    have h1 : a ≤ E.erfinv t * Real.sqrt 2 := by
      have h2 := mul_le_mul_of_nonneg_right hlow2 (le_of_lt hs2)
      rwa [div_mul_cancel₀ _ (ne_of_gt hs2)] at h2
    exact mul_le_mul_of_nonneg_right h1 (le_of_lt hs)
  have hmul_high : E.erfinv t * Real.sqrt 2 * stddev ≤ b * stddev := by
    have h1 : E.erfinv t * Real.sqrt 2 ≤ b := by
      have h2 := mul_le_mul_of_nonneg_right hhigh2 (le_of_lt hs2)
      rwa [div_mul_cancel₀ _ (ne_of_gt hs2)] at h2
    exact mul_le_mul_of_nonneg_right h1 (le_of_lt hs)
  have ha2 : a * stddev = low - mean := by
    rw [ha, truncAlpha, div_mul_cancel₀ _ (ne_of_gt hs)]
  have hb2 : b * stddev = high - mean := by
    rw [hb, truncBeta, div_mul_cancel₀ _ (ne_of_gt hs)]
  rw [hicdf]
  constructor
  · rw [ha2] at hmul_low
    linarith
  · rw [hb2] at hmul_high
    linarith

/-- Closed witness for `truncatedNormal_sample_in_range`, at
`TruncatedNormal(0, 1, 0, 1)` and draw `r = 1/2`. -/
theorem truncatedNormal_sample_in_range_witness :
    (0 : ℝ) ≤ truncSampleValue erfModel 0 1 0 1 (1 / 2)
    ∧ truncSampleValue erfModel 0 1 0 1 (1 / 2) ≤ 1 :=
  truncatedNormal_sample_in_range erfModel 0 1 0 1 (1 / 2) (by norm_num)
    (by norm_num) (by norm_num) (by norm_num)

lemma retryLoop_none_of_stuck {α : Type} (attempt : ℕ → Option α)
    (h : ∀ i : ℕ, attempt i = none) :
    ∀ (fuel i : ℕ), retryLoop attempt i fuel = none
  | 0, _ => rfl
  | fuel + 1, i => by
    simp only [retryLoop, h i]
    exact retryLoop_none_of_stuck attempt h fuel (i + 1)

lemma warningsPrinted_of_lt : ∀ n : ℕ, n < 10000 → warningsPrinted n = 0
  | 0, _ => rfl
  | n + 1, h => by
    show warningsPrinted n + (if n + 1 = 10000 then 1 else 0) = 0
    rw [warningsPrinted_of_lt n (by omega), if_neg (by omega)]

lemma warningsPrinted_succ (n : ℕ) :
    warningsPrinted (n + 1) = warningsPrinted n + if n + 1 = 10000 then 1 else 0 :=
  rfl

lemma warningsPrinted_of_ge (n : ℕ) (hn : 10000 ≤ n) : warningsPrinted n = 1 := by
  refine Nat.le_induction ?_ ?_ n hn
  · rw [show (10000 : ℕ) = 9999 + 1 by norm_num, warningsPrinted_succ,
      warningsPrinted_of_lt 9999 (by omega), if_pos (by omega)]
  · intro m hm ih
    rw [warningsPrinted_succ, ih, if_neg (by omega)]

/-- C1 (bug exhibit): in `TruncatedNormal.sample` the uniform draw is taken
once, before the retry loop, so when the first inverse-CDF evaluation is
non-finite the loop re-evaluates the very same expression forever for every
iteration bound (`truncSampleCode` on `stuckEval`/`drawStream` never
returns), while the spec-mandated fresh-draw retry succeeds on the second
draw; the one-time diagnostic at `attempt_count == 10000` is emitted exactly
once and never repeated. -/
theorem truncatedNormal_sample_stale_rand :
    (∀ fuel : ℕ, truncSampleCode stuckEval drawStream fuel = none)
    ∧ truncSampleFresh stuckEval drawStream 2 = some 1
    ∧ warningsPrinted 10000 = 1
    ∧ (∀ n : ℕ, warningsPrinted n ≤ 1) := by
  refine ⟨?_, ?_, warningsPrinted_of_ge 10000 (by omega), ?_⟩
  · intro fuel
    refine retryLoop_none_of_stuck _ ?_ fuel 0
    intro i
    simp [stuckEval, drawStream]
  · simp [truncSampleFresh, retryLoop, stuckEval, drawStream]
  · intro n
    rcases lt_or_ge n 10000 with h | h
    · rw [warningsPrinted_of_lt n h]
      omega
    · rw [warningsPrinted_of_ge n h]
